import Mathlib

/-!
Verification development for two components of the LibBi repository:

* `bi::TreeNetworkNode` (share/src/bi/mpi/TreeNetworkNode.cpp): a node of the
  MPI communication tree, holding an active set of child communicators plus
  two pending sets (to add, to remove) that are merged in by `updateChildren`.
  Communicators (`MPI_Comm`) are modelled as natural-number handles; the
  `std::set` containers are modelled as `Finset ℕ`.

* `bi::MarginalSIR` (share/src/bi/sampler/MarginalSIR.hpp): the SMC² sampler.
  C++ `double` values are modelled by the type `D` below: a real number or one
  of the three non-finite IEEE values (+inf, -inf, NaN), with IEEE-754
  semantics for the arithmetic and comparisons the source performs.  The
  external collaborators (inner filter, adapter, resampler, rng) are modelled
  as oracle functions packaged in an environment record; calls that consume
  sequential randomness are indexed by explicit call counters.
-/

/-! ### TreeNetworkNode (share/src/bi/mpi/TreeNetworkNode.cpp) -/

/-- One node of the communication tree: an upward link `parent` and three sets
of child communicator handles: the active set `comms`, the pending additions
`newcomms` and the pending removals `oldcomms`. -/
structure TreeNetworkNode where
  parent : ℕ
  comms : Finset ℕ
  newcomms : Finset ℕ
  oldcomms : Finset ℕ
deriving DecidableEq

/-- The constructor `TreeNetworkNode()`: parent is `MPI_COMM_NULL` (handle 0),
all three sets empty. -/
def TreeNetworkNode.start : TreeNetworkNode := ⟨0, ∅, ∅, ∅⟩

/-- `setParent(comm)`. -/
def TreeNetworkNode.setParent (t : TreeNetworkNode) (comm : ℕ) : TreeNetworkNode :=
  { t with parent := comm }

/-- `addChild(comm)`: reads `n = comms.size() + newcomms.size()`, inserts
`comm` into `newcomms`, returns `n` (paired with the updated node). -/
def TreeNetworkNode.addChild (t : TreeNetworkNode) (comm : ℕ) : ℕ × TreeNetworkNode :=
  (t.comms.card + t.newcomms.card, { t with newcomms := insert comm t.newcomms })

/-- `removeChild(comm)`: inserts `comm` into `oldcomms`. -/
def TreeNetworkNode.removeChild (t : TreeNetworkNode) (comm : ℕ) : TreeNetworkNode :=
  { t with oldcomms := insert comm t.oldcomms }

/-- `updateChildren()`: inserts all of `newcomms` into `comms`, clears
`newcomms`, erases all of `oldcomms` from `comms`, clears `oldcomms`, and
returns the resulting `comms.size()`. -/
def TreeNetworkNode.updateChildren (t : TreeNetworkNode) : ℕ × TreeNetworkNode :=
  let comms1 := (t.comms ∪ t.newcomms) \ t.oldcomms
  (comms1.card, { t with comms := comms1, newcomms := ∅, oldcomms := ∅ })

/-- A recorded membership call: either `addChild` or `removeChild` on a given
communicator handle. -/
inductive TOp where
  | add (comm : ℕ)
  | remove (comm : ℕ)
deriving DecidableEq

/-- Apply one membership call to a node (the `int` returned by `addChild` is
discarded). -/
def TreeNetworkNode.applyOp (t : TreeNetworkNode) : TOp → TreeNetworkNode
  | .add comm => (t.addChild comm).2
  | .remove comm => t.removeChild comm

/-- Run a sequence of membership calls. -/
def TreeNetworkNode.runOps (t : TreeNetworkNode) (l : List TOp) : TreeNetworkNode :=
  l.foldl TreeNetworkNode.applyOp t

/-- The handle added by an `add` call, if any. -/
def TOp.added : TOp → Option ℕ
  | .add comm => some comm
  | .remove _ => none

/-- The handle removed by a `remove` call, if any. -/
def TOp.removed : TOp → Option ℕ
  | .add _ => none
  | .remove comm => some comm

/-- The set of all handles ever added by a call sequence. -/
def addsOf (l : List TOp) : Finset ℕ := (l.filterMap TOp.added).toFinset

/-- The set of all handles ever removed by a call sequence. -/
def removesOf (l : List TOp) : Finset ℕ := (l.filterMap TOp.removed).toFinset

/-! ### IEEE-754 doubles, as used by MarginalSIR

A C++ `double` is modelled as a real number or one of the three non-finite
values.  Only the operations the source performs are defined: negation,
addition, subtraction, the strict `<` comparison (false whenever a NaN is
involved) and the `bi::is_finite` test. -/

/-- A C++ `double`: finite (a real), +infinity, -infinity, or NaN. -/
inductive D where
  | fin (x : ℝ)
  | pinf
  | ninf
  | nan

/-- `bi::is_finite`. -/
def D.isFinite : D → Bool
  | .fin _ => true
  | _ => false

/-- IEEE negation. -/
def D.neg : D → D
  | .fin x => .fin (-x)
  | .pinf => .ninf
  | .ninf => .pinf
  | .nan => .nan

/-- IEEE addition: infinities of opposite sign give NaN, NaN propagates. -/
def D.add : D → D → D
  | .fin x, .fin y => .fin (x + y)
  | .fin _, .pinf => .pinf
  | .fin _, .ninf => .ninf
  | .pinf, .fin _ => .pinf
  | .ninf, .fin _ => .ninf
  | .pinf, .pinf => .pinf
  | .ninf, .ninf => .ninf
  | .pinf, .ninf => .nan
  | .ninf, .pinf => .nan
  | .nan, _ => .nan
  | _, .nan => .nan

/-- IEEE subtraction `a - b = a + (-b)`. -/
def D.sub (a b : D) : D := a.add b.neg

/-- IEEE strict less-than: any comparison involving NaN is false. -/
noncomputable def D.ltb : D → D → Bool
  | .fin x, .fin y => decide (x < y)
  | .fin _, .pinf => true
  | .fin _, .ninf => false
  | .pinf, .pinf => false
  | .pinf, .fin _ => false
  | .pinf, .ninf => false
  | .ninf, .pinf => true
  | .ninf, .fin _ => true
  | .ninf, .ninf => false
  | .nan, _ => false
  | _, .nan => false

/-- A double that is a real number lying in the closed unit interval. -/
def D.inUnit (d : D) : Prop := ∃ x : ℝ, d = .fin x ∧ 0 ≤ x ∧ x ≤ 1

/-! ### MarginalSIR data model (share/src/bi/sampler/MarginalSIR.hpp) -/

/-- Inner-filter per-particle state (the `s1`/`s2` objects): the fields the
sampler reads or writes, plus an opaque payload standing for the rest of the
state (trajectories, diagnostics). -/
structure PF where
  logLikelihood : D
  logPrior : D
  logProposal : D
  logIncrements : ℕ → D
  payload : ℕ

instance : Inhabited PF := ⟨⟨D.nan, D.nan, D.nan, fun _ => D.nan, 0⟩⟩

/-- A per-particle output buffer (`out1`/`out2`), opaque to the sampler. -/
def Out := ℕ

instance : Inhabited Out := ⟨(0 : ℕ)⟩

/-- The theta-particle population (the state `s`): per-particle inner-filter
states and output buffers, the log-weight and ancestor vectors, the scalar
diagnostics, the per-observation log-increments, and the single shared scratch
slot `s2`/`out2` used during rejuvenation. -/
structure Pop where
  s1s : List PF
  out1s : List Out
  logWeights : List D
  ancestors : List ℤ
  ess : D
  logLikelihood : D
  logIncrements : ℕ → D
  s2 : PF
  out2 : Out

/-- `s.size()`. -/
def Pop.size (pop : Pop) : ℕ := pop.s1s.length

/-- The sampler object's own mutable state: `nmoves`, `lastResample`,
`lastAcceptRate`, plus an opaque handle for the adapter collaborator's
accumulated state. -/
structure Sir where
  nmoves : ℕ
  lastResample : Bool
  lastAcceptRate : D
  adapterState : ℕ

/-- Call counters for the sequentially consumed randomness of the resampler,
the proposal, the inner filter, and the uniform draws. -/
structure Ctrs where
  resam : ℕ
  prop : ℕ
  filt : ℕ
  unif : ℕ

/-- Result of a collaborator call that may throw (`CholeskyException` or
`ParticleFilterDegeneratedException`): in the thrown case the returned
state/output hold whatever partial writes occurred before the throw. -/
inductive Outcome where
  | ok (s : PF) (o : Out)
  | exn (s : PF) (o : Out)

/-- Oracle environment standing for the external collaborators (inner filter,
adapter, resampler, output, schedule and rng).  Sequentially random calls take
an explicit call counter; the per-particle loops of `init`, `step` and `term`
consume randomness indexed by the particle slot. -/
structure Env where
  initFilter : ℕ → ℕ → PF → Out → PF × Out
  adapterClear : ℕ → ℕ
  adapterAdd : ℕ → Pop → ℕ
  adapterReady : ℕ → Bool
  adapterAdapt : ℕ → ℕ
  resample : ℕ → ℕ → Pop → Bool × Pop
  propose : ℕ → Bool → ℕ → PF → PF → Out → Outcome
  filterF : ℕ → ℕ → ℕ → PF → Out → Outcome
  uniform : ℕ → ℝ
  fstep : ℕ → ℕ → ℕ → PF → Out → PF × Out
  samplePath : ℕ → PF → Out → PF × Out
  stepAdvance : ℕ → ℕ → ℕ
  obs : ℕ → Bool
  obsIdx : ℕ → ℕ

/-! ### rejuvenate (MarginalSIR.hpp lines 315-387) -/

/-- The try block of one rejuvenation move (lines 331-345): propose a
replacement into the scratch slot; if the proposed log-prior is finite, run
the full inner filter over `[iFirst, iLast)`; an exception from either call is
caught and maps the scratch log-likelihood to `-infinity`.  Returns the
scratch state, the scratch output, whether `filter.filter` was invoked, and
the updated call counters. -/
def tryPhase (env : Env) (iFirst iLast : ℕ) (ready : Bool) (c : Ctrs)
    (s1 s2 : PF) (o2 : Out) : PF × Out × Bool × Ctrs :=
  match env.propose c.prop ready iFirst s1 s2 o2 with
  | .exn s2a o2a =>
      ({ s2a with logLikelihood := D.ninf }, o2a, false, { c with prop := c.prop + 1 })
  | .ok s2a o2a =>
      let c1 : Ctrs := { c with prop := c.prop + 1 }
      if s2a.logPrior.isFinite then
        match env.filterF c1.filt iFirst iLast s2a o2a with
        | .ok s2b o2b => (s2b, o2b, true, { c1 with filt := c1.filt + 1 })
        | .exn s2b o2b =>
            ({ s2b with logLikelihood := D.ninf }, o2b, true, { c1 with filt := c1.filt + 1 })
      else
        (s2a, o2a, false, c1)

/-- The accept-or-reject block of one rejuvenation move (lines 347-365), as a
function of the current state `s1`, the scratch state `s2` after the try
block, and the uniform draw `u` (which the source only draws on the branch
where both log-likelihoods are finite).  The source first computes
`logqr = s1.logProposal - s2.logProposal` and then overwrites it with `0.0`
when both proposal densities are non-finite; the single conditional below
yields the same value. -/
noncomputable def acceptOf (s1 s2 : PF) (u : ℝ) : Bool :=
  if s2.logLikelihood.isFinite = false then false
  else if s1.logLikelihood.isFinite = false then true
  else
    let loglr := s2.logLikelihood.sub s1.logLikelihood
    let logpr := s2.logPrior.sub s1.logPrior
    let logqr :=
      if s1.logProposal.isFinite = false ∧ s2.logProposal.isFinite = false then D.fin 0
      else s1.logProposal.sub s2.logProposal
    D.ltb (D.fin (Real.log u)) ((loglr.add logpr).add logqr)

/-- The Metropolis-Hastings log-ratio as the specification words it:
`(proposedLL - currentLL) + (proposedPrior - currentPrior) +
(currentProposalDensity - proposedProposalDensity)`, with the proposal-density
term zero exactly when both proposal densities are non-finite. -/
def specLogratio (s1 s2 : PF) : D :=
  ((s2.logLikelihood.sub s1.logLikelihood).add (s2.logPrior.sub s1.logPrior)).add
    (if s1.logProposal.isFinite = false ∧ s2.logProposal.isFinite = false then D.fin 0
     else s1.logProposal.sub s2.logProposal)

/-- Result of one rejuvenation move: new particle slot, new scratch slot,
accept counter, call counters, and the two facts the claims inspect: whether
the move was accepted and whether `filter.filter` was invoked. -/
structure MoveResult where
  s1 : PF
  o1 : Out
  s2 : PF
  o2 : Out
  naccept : ℕ
  c : Ctrs
  accept : Bool
  filterInvoked : Bool

/-- One Metropolis-Hastings move of `rejuvenate` (lines 330-375) on particle
slot `s1`/`o1` with scratch `s2`/`o2`: try block, accept-or-reject, and on
acceptance the swap of particle and scratch slots plus the accept-counter
increment. -/
noncomputable def rejuvenateMove (env : Env) (iFirst iLast : ℕ) (ready : Bool)
    (c : Ctrs) (s1 : PF) (o1 : Out) (s2 : PF) (o2 : Out) (naccept : ℕ) : MoveResult :=
  let t := tryPhase env iFirst iLast ready c s1 s2 o2
  let s2a := t.1
  let o2a := t.2.1
  let finv := t.2.2.1
  let c1 := t.2.2.2
  let ad :=
    if s2a.logLikelihood.isFinite = false then (false, c1)
    else if s1.logLikelihood.isFinite = false then (true, c1)
    else (acceptOf s1 s2a (env.uniform c1.unif), { c1 with unif := c1.unif + 1 })
  if ad.1 then ⟨s2a, o2a, s1, o1, naccept + 1, ad.2, true, finv⟩
  else ⟨s1, o1, s2a, o2a, naccept, ad.2, false, finv⟩

/-- The state threaded through the move loop of one particle. -/
structure RejState where
  s1 : PF
  o1 : Out
  s2 : PF
  o2 : Out
  naccept : ℕ
  c : Ctrs

/-- The `for move` loop (lines 330-375): `nmoves` successive moves on one
particle slot. -/
noncomputable def movesLoop (env : Env) (iFirst iLast : ℕ) (ready : Bool) :
    ℕ → RejState → RejState
  | 0, st => st
  | k + 1, st =>
      let r := rejuvenateMove env iFirst iLast ready st.c st.s1 st.o1 st.s2 st.o2 st.naccept
      movesLoop env iFirst iLast ready k ⟨r.s1, r.o1, r.s2, r.o2, r.naccept, r.c⟩

/-- The `for p` loop (lines 324-376): process the particle slots in order,
threading the shared scratch slot, the accept counter and the call counters
through. -/
noncomputable def particlesLoop (env : Env) (iFirst iLast : ℕ) (ready : Bool) (nmoves : ℕ) :
    List (PF × Out) → PF → Out → ℕ → Ctrs → List (PF × Out) × PF × Out × ℕ × Ctrs
  | [], s2, o2, na, c => ([], s2, o2, na, c)
  | (s1, o1) :: rest, s2, o2, na, c =>
      let st := movesLoop env iFirst iLast ready nmoves ⟨s1, o1, s2, o2, na, c⟩
      let r := particlesLoop env iFirst iLast ready nmoves rest st.s2 st.o2 st.naccept st.c
      ((st.s1, st.o1) :: r.1, r.2.1, r.2.2.1, r.2.2.2.1, r.2.2.2.2)

/-- `rejuvenate` (lines 315-387): when `lastResample` is set, run `nmoves`
MH moves for every particle against the shared scratch slot, then set
`lastAcceptRate = double(naccept) / ntotal` with `ntotal = nmoves * size`
(single-process build: the MPI reduction is compiled out).  A zero `ntotal`
makes that division the IEEE `0.0/0` (NaN) or `naccept/0` (+infinity). -/
noncomputable def rejuvenate (env : Env) (iFirst iLast : ℕ) (st : Sir) (pop : Pop)
    (c : Ctrs) : Sir × Pop × Ctrs :=
  if st.lastResample then
    let ready := env.adapterReady st.adapterState
    let r := particlesLoop env iFirst iLast ready st.nmoves (pop.s1s.zip pop.out1s)
      pop.s2 pop.out2 0 c
    let ntotal := st.nmoves * pop.size
    let rate : D :=
      if ntotal = 0 then (if r.2.2.2.1 = 0 then D.nan else D.pinf)
      else D.fin ((r.2.2.2.1 : ℝ) / (ntotal : ℝ))
    ({ st with lastAcceptRate := rate },
     { pop with s1s := r.1.map Prod.fst, out1s := r.1.map Prod.snd,
                s2 := r.2.1, out2 := r.2.2.1 },
     r.2.2.2.2)
  else (st, pop, c)

/-! ### init, step, term (MarginalSIR.hpp lines 245-296 and 430-440) -/

/-- The finite payload of a double, if any. -/
def D.toFinite : D → Option ℝ
  | .fin x => some x
  | _ => none

/-- The four particle-indexed fields of a population at index `p`: inner
state, output buffer, log-weight, ancestor. -/
def slotView (pop : Pop) (p : ℕ) : PF × Out × D × ℤ :=
  (pop.s1s.getD p default, pop.out1s.getD p default,
    pop.logWeights.getD p D.nan, pop.ancestors.getD p 0)

/-- One iteration of a per-particle loop: apply the slot transform `σ` to the
particle-indexed fields at index `p` (inner state, output buffer, log-weight,
ancestor), leaving every other index and every other field unchanged.  This is
the common shape of the `for p` loops of `init`, `step` and `term`, whose
bodies read and write only slot `p`. -/
def slotAt (σ : ℕ → PF × Out × D × ℤ → PF × Out × D × ℤ) (pop : Pop) (p : ℕ) : Pop :=
  let t := σ p (slotView pop p)
  { pop with s1s := pop.s1s.set p t.1, out1s := pop.out1s.set p t.2.1,
             logWeights := pop.logWeights.set p t.2.2.1,
             ancestors := pop.ancestors.set p t.2.2.2 }

/-- Body of the init loop (lines 249-260): run the inner filter's
init/output0/correct/output calls on slot `p` (compressed into the oracle
`initFilter`, which yields the corrected state), then set
`logWeights[p] = s1.logLikelihood` and `ancestors[p] = p`. -/
def initSlot (env : Env) (iFirst : ℕ) (p : ℕ) :
    PF × Out × D × ℤ → PF × Out × D × ℤ :=
  fun t =>
    let r := env.initFilter iFirst p t.1 t.2.1
    (r.1, r.2, r.1.logLikelihood, (p : ℤ))

/-- `init` (lines 245-265): the per-particle initialisation loop, then clear
the output buffer, reset `lastResample` to false and `lastAcceptRate` to 0. -/
def init (env : Env) (iFirst : ℕ) (st : Sir) (pop : Pop) (_out : List ℕ) :
    Sir × Pop × List ℕ :=
  let pop1 := (List.range pop.size).foldl (slotAt (initSlot env iFirst)) pop
  ({ st with lastResample := false, lastAcceptRate := D.fin 0 }, pop1, [])

/-- `adapt` (lines 298-306): clear the adapter, feed it the population, and
run an adaptation pass only if the adapter reports readiness. -/
def adapt (env : Env) (st : Sir) (pop : Pop) : Sir :=
  let a1 := env.adapterAdd (env.adapterClear st.adapterState) pop
  { st with adapterState := if env.adapterReady a1 then env.adapterAdapt a1 else a1 }

/-- `resample` (lines 308-313): delegate to the resampler collaborator and
store its boolean result in `lastResample`. -/
def resample (env : Env) (iter : ℕ) (st : Sir) (pop : Pop) (c : Ctrs) :
    Sir × Pop × Ctrs :=
  let r := env.resample c.resam iter pop
  ({ st with lastResample := r.1 }, r.2, { c with resam := c.resam + 1 })

/-- Body of the advance loop in step (lines 278-288): re-set the local
iterator to the pass's starting position `iter`, advance slot `p`'s inner
filter one schedule step, and add the log-increment the advanced filter
recorded at the new position's observation index to slot `p`'s log-weight. -/
def advanceSlot (env : Env) (iLast iter : ℕ) (p : ℕ) :
    PF × Out × D × ℤ → PF × Out × D × ℤ :=
  fun t =>
    let r := env.fstep p iter iLast t.1 t.2.1
    (r.1, r.2,
      t.2.2.1.add (r.1.logIncrements (env.obsIdx (env.stepAdvance iLast iter))),
      t.2.2.2)

/-- One pass of step's do-while body (lines 272-289): adapt, resample,
rejuvenate (targeting `iter + 1`), report (diagnostics only, no state), then
advance every particle from the same starting position; the schedule iterator
moves to the common advanced position. -/
noncomputable def stepPass (env : Env) (iFirst iLast iter : ℕ) (st : Sir) (pop : Pop)
    (c : Ctrs) : ℕ × Sir × Pop × Ctrs :=
  let st1 := adapt env st pop
  let r1 := resample env iter st1 pop c
  let r2 := rejuvenate env iFirst (iter + 1) r1.1 r1.2.1 r1.2.2
  let pop3 := (List.range r2.2.1.size).foldl (slotAt (advanceSlot env iLast iter)) r2.2.1
  (env.stepAdvance iLast iter, r2.1, pop3, r2.2.2)

/-- Modelled from the spec: `logsumexp_reduce` from
`bi/primitive/vector_primitive.hpp`, which is not among the sources under
verification.  Per the spec it yields the combined log-weight of a log-weight
vector: `log(sum_p exp w_p)`.  Defined here for all-finite vectors; any
non-finite entry yields NaN. -/
noncomputable def logsumexpD (ws : List D) : D :=
  match ws.mapM D.toFinite with
  | some rs => D.fin (Real.log ((rs.map Real.exp).sum))
  | none => D.nan

/-- Modelled from the spec: the ESS half of `ess_reduce` from
`bi/primitive/vector_primitive.hpp` (not among the sources under
verification): the log-domain effective sample size
`(sum_p exp w_p)^2 / sum_p exp(2 w_p)` of a log-weight vector.  Defined here
for all-finite vectors; any non-finite entry yields NaN. -/
noncomputable def essReduce (ws : List D) : D :=
  match ws.mapM D.toFinite with
  | some rs =>
      D.fin (((rs.map Real.exp).sum) ^ 2 / ((rs.map (fun x => Real.exp (2 * x))).sum))
  | none => D.nan

/-- The loop-exit computation of step (lines 292-295): recompute `ess` from
the log-weights (the same reduction also yields the combined log-weight `lW`),
record the per-observation increment `lW - logLikelihood` at the current
observation index, then set `logLikelihood = lW`. -/
noncomputable def stepExit (env : Env) (iter : ℕ) (pop : Pop) : Pop :=
  let lW := logsumexpD pop.logWeights
  { pop with ess := essReduce pop.logWeights,
             logIncrements :=
               Function.update pop.logIncrements (env.obsIdx iter) (lW.sub pop.logLikelihood),
             logLikelihood := lW }

/-- The do-while loop of step (lines 271-290), with explicit fuel: run one
pass, repeat while the schedule is not exhausted (`iter + 1 != last`) and the
current element is not observed. -/
noncomputable def stepLoop (env : Env) (iFirst iLast : ℕ) :
    ℕ → ℕ → Sir → Pop → Ctrs → ℕ × Sir × Pop × Ctrs
  | 0, iter, st, pop, c => (iter, st, pop, c)
  | fuel + 1, iter, st, pop, c =>
      let r := stepPass env iFirst iLast iter st pop c
      if r.1 + 1 ≠ iLast ∧ env.obs r.1 = false then
        stepLoop env iFirst iLast fuel r.1 r.2.1 r.2.2.1 r.2.2.2
      else r

/-- `step` (lines 267-296): the do-while loop followed by the loop-exit
computation on the final population and iterator position. -/
noncomputable def step (env : Env) (iFirst iLast : ℕ) (fuel iter : ℕ) (st : Sir)
    (pop : Pop) (c : Ctrs) : ℕ × Sir × Pop × Ctrs :=
  let r := stepLoop env iFirst iLast fuel iter st pop c
  (r.1, r.2.1, stepExit env r.1 r.2.2.1, r.2.2.2)

/-- Body of the samplePath loop in term (lines 435-439): materialise a final
trajectory sample for slot `p`. -/
def pathSlot (env : Env) (p : ℕ) : PF × Out × D × ℤ → PF × Out × D × ℤ :=
  fun t =>
    let r := env.samplePath p t.1 t.2.1
    (r.1, r.2, t.2.2.1, t.2.2.2)

/-- `term` (lines 430-440): add `logsumexp(logWeights) - log(size)` to the
marginal log-likelihood, then invoke the inner filter's samplePath on every
particle. -/
noncomputable def term (env : Env) (pop : Pop) : Pop :=
  let ll1 := pop.logLikelihood.add
    ((logsumexpD pop.logWeights).sub (D.fin (Real.log (pop.size : ℝ))))
  let pop1 := { pop with logLikelihood := ll1 }
  (List.range pop1.size).foldl (slotAt (pathSlot env)) pop1

/-! ### Concrete instantiations used by witnesses and counterexamples -/

/-- A particle state with all numeric fields zero. -/
def pf0 : PF := ⟨D.fin 0, D.fin 0, D.fin 0, fun _ => D.fin 0, 0⟩

/-- A particle state whose own log-likelihood is non-finite. -/
def pfNoLL : PF := ⟨D.ninf, D.fin 0, D.fin 0, fun _ => D.fin 0, 0⟩

/-- A proposed state with a non-finite log-prior but a (stale) finite
log-likelihood. -/
def pfC4 : PF := ⟨D.fin 0, D.ninf, D.fin 0, fun _ => D.fin 0, 0⟩

/-- A proposed state with a non-finite log-prior and a non-finite (stale)
log-likelihood. -/
def pfC4r : PF := ⟨D.nan, D.ninf, D.fin 0, fun _ => D.fin 0, 0⟩

/-- A concrete output-buffer token. -/
def o0 : Out := (0 : ℕ)

/-- Zeroed call counters. -/
def c0 : Ctrs := ⟨0, 0, 0, 0⟩

/-- A one-particle population with zeroed fields. -/
def popW : Pop := ⟨[pf0], [o0], [D.fin 0], [0], D.fin 0, D.fin 0, fun _ => D.fin 0, pf0, o0⟩

/-- A two-particle population with zeroed fields. -/
def popW2 : Pop :=
  ⟨[pf0, pfNoLL], [o0, o0], [D.fin 0, D.fin 0], [0, 1], D.fin 0, D.fin 0,
    fun _ => D.fin 0, pf0, o0⟩

/-- Sampler state with one move per particle and a pending resample. -/
def stW : Sir := ⟨1, true, D.fin 0, 0⟩

/-- Sampler state with zero moves per particle and a pending resample. -/
def stC3 : Sir := ⟨0, true, D.fin 0, 0⟩

/-- A degenerate but fully concrete collaborator environment for witness
instantiations: the inner filter's init stamps slot `p`'s log-likelihood with
`p`, the other oracles are identity-like, the resampler always reports a
resample, and the uniform draw is constantly one half. -/
noncomputable def env0 : Env where
  initFilter := fun _ p s o => ({ s with logLikelihood := D.fin (p : ℝ) }, o)
  adapterClear := fun a => a
  adapterAdd := fun a _ => a
  adapterReady := fun _ => false
  adapterAdapt := fun a => a
  resample := fun _ _ pop => (true, pop)
  propose := fun _ _ _ _ s2 o2 => .ok s2 o2
  filterF := fun _ _ _ s2 o2 => .ok s2 o2
  uniform := fun _ => (1 : ℝ) / 2
  fstep := fun _ _ _ s o => (s, o)
  samplePath := fun _ s o => (s, o)
  stepAdvance := fun _ i => i + 1
  obs := fun _ => true
  obsIdx := fun i => i

/-- `env0` with a proposal that always yields `pfC4` (non-finite prior, stale
finite likelihood). -/
noncomputable def envC4 : Env :=
  { env0 with propose := fun _ _ _ _ _ o2 => Outcome.ok pfC4 o2 }

/-- `env0` with a proposal that always yields `pfC4r` (non-finite prior,
non-finite stale likelihood). -/
noncomputable def envC4r : Env :=
  { env0 with propose := fun _ _ _ _ _ o2 => Outcome.ok pfC4r o2 }

/-- A four-particle population with all log-weights 2.0 and log-likelihood
10.0. -/
def popC6 : Pop := ⟨[pf0, pf0, pf0, pf0], [o0, o0, o0, o0],
  [D.fin 2, D.fin 2, D.fin 2, D.fin 2], [0, 1, 2, 3], D.fin 0, D.fin 10,
  fun _ => D.fin 0, pf0, o0⟩

/-! ## Theorems -/

theorem addsOf_cons_add (c : ℕ) (l : List TOp) :
    addsOf (TOp.add c :: l) = insert c (addsOf l) := by
  simp [addsOf, List.filterMap_cons, TOp.added]

theorem addsOf_cons_remove (c : ℕ) (l : List TOp) :
    addsOf (TOp.remove c :: l) = addsOf l := by
  simp [addsOf, List.filterMap_cons, TOp.added]

theorem removesOf_cons_add (c : ℕ) (l : List TOp) :
    removesOf (TOp.add c :: l) = removesOf l := by
  simp [removesOf, List.filterMap_cons, TOp.removed]

theorem removesOf_cons_remove (c : ℕ) (l : List TOp) :
    removesOf (TOp.remove c :: l) = insert c (removesOf l) := by
  simp [removesOf, List.filterMap_cons, TOp.removed]

/-- Running a call sequence leaves `parent` and `comms` alone and accumulates
the added/removed handles into the two pending sets. -/
theorem runOps_fields (l : List TOp) : ∀ t : TreeNetworkNode,
    (t.runOps l).parent = t.parent ∧
    (t.runOps l).comms = t.comms ∧
    (t.runOps l).newcomms = t.newcomms ∪ addsOf l ∧
    (t.runOps l).oldcomms = t.oldcomms ∪ removesOf l := by
  induction l with
  | nil =>
    intro t
    simp [TreeNetworkNode.runOps, addsOf, removesOf]
  | cons op rest ih =>
    intro t
    have hstep : (t.runOps (op :: rest)) = (t.applyOp op).runOps rest := rfl
    rcases op with c | c
    · rcases ih (t.applyOp (TOp.add c)) with ⟨h1, h2, h3, h4⟩
      refine ⟨?_, ?_, ?_, ?_⟩
      · rw [hstep, h1]; rfl
      · rw [hstep, h2]; rfl
      · rw [hstep, h3, addsOf_cons_add]
        show insert c t.newcomms ∪ addsOf rest = t.newcomms ∪ insert c (addsOf rest)
        rw [Finset.insert_union, Finset.union_insert]
      · rw [hstep, h4, removesOf_cons_add]; rfl
    · rcases ih (t.applyOp (TOp.remove c)) with ⟨h1, h2, h3, h4⟩
      refine ⟨?_, ?_, ?_, ?_⟩
      · rw [hstep, h1]; rfl
      · rw [hstep, h2]; rfl
      · rw [hstep, h3, addsOf_cons_remove]; rfl
      · rw [hstep, h4, removesOf_cons_remove]
        show insert c t.oldcomms ∪ removesOf rest = t.oldcomms ∪ insert c (removesOf rest)
        rw [Finset.insert_union, Finset.union_insert]

/-- Claim C2: starting from a fresh node, after any sequence of
`addChild`/`removeChild` calls followed by a single `updateChildren`, both
pending sets are empty, the active set equals (all handles ever added) minus
(all handles ever removed), the returned count is the size of that active set,
and the outcome is invariant under permuting the call sequence. -/
theorem updateChildren_commit_spec (l : List TOp) :
    (TreeNetworkNode.start.runOps l).updateChildren.2.newcomms = ∅ ∧
    (TreeNetworkNode.start.runOps l).updateChildren.2.oldcomms = ∅ ∧
    (TreeNetworkNode.start.runOps l).updateChildren.2.comms = addsOf l \ removesOf l ∧
    (TreeNetworkNode.start.runOps l).updateChildren.1 = (addsOf l \ removesOf l).card ∧
    ∀ l' : List TOp, l'.Perm l →
      (TreeNetworkNode.start.runOps l').updateChildren =
        (TreeNetworkNode.start.runOps l).updateChildren := by
  rcases runOps_fields l TreeNetworkNode.start with ⟨hp, hc, hn, ho⟩
  have hc' : (TreeNetworkNode.start.runOps l).comms = ∅ := by
    rw [hc]; rfl
  have hn' : (TreeNetworkNode.start.runOps l).newcomms = addsOf l := by
    rw [hn]; show ∅ ∪ addsOf l = addsOf l; exact Finset.empty_union _
  have ho' : (TreeNetworkNode.start.runOps l).oldcomms = removesOf l := by
    rw [ho]; show ∅ ∪ removesOf l = removesOf l; exact Finset.empty_union _
  have hmain : (TreeNetworkNode.start.runOps l).updateChildren =
      ((addsOf l \ removesOf l).card,
        ⟨(TreeNetworkNode.start.runOps l).parent, addsOf l \ removesOf l, ∅, ∅⟩) := by
    rw [TreeNetworkNode.updateChildren, hc', hn', ho']
    rw [Finset.empty_union]
  refine ⟨?_, ?_, ?_, ?_, ?_⟩
  · rw [hmain]
  · rw [hmain]
  · rw [hmain]
  · rw [hmain]
  · intro l' hperm
    rcases runOps_fields l' TreeNetworkNode.start with ⟨hp2, hc2, hn2, ho2⟩
    have hadds : addsOf l' = addsOf l := by
      apply List.toFinset_eq_of_perm
      exact hperm.filterMap TOp.added
    have hrems : removesOf l' = removesOf l := by
      apply List.toFinset_eq_of_perm
      exact hperm.filterMap TOp.removed
    have heq : TreeNetworkNode.start.runOps l' = TreeNetworkNode.start.runOps l := by
      rcases h1 : TreeNetworkNode.start.runOps l' with ⟨a1, b1, c1, d1⟩
      rcases h2 : TreeNetworkNode.start.runOps l with ⟨a2, b2, c2, d2⟩
      rw [h1] at hp2 hc2 hn2 ho2
      rw [h2] at hp hc hn ho
      simp only at hp2 hc2 hn2 ho2 hp hc hn ho
      congr 1
      · rw [hp2, hp]
      · rw [hc2, hc]
      · rw [hn2, hn, hadds]
      · rw [ho2, ho, hrems]
    rw [heq]

/-- Witness for C2 at a concrete call sequence and a concrete permutation of
it. -/
theorem updateChildren_commit_spec_witness :
    ([TOp.remove 2, TOp.add 1]).Perm [TOp.add 1, TOp.remove 2] ∧
    (TreeNetworkNode.start.runOps [TOp.remove 2, TOp.add 1]).updateChildren =
      (TreeNetworkNode.start.runOps [TOp.add 1, TOp.remove 2]).updateChildren := by
  refine ⟨by decide, ?_⟩
  exact (updateChildren_commit_spec [TOp.add 1, TOp.remove 2]).2.2.2.2
    [TOp.remove 2, TOp.add 1] (by decide)

/-- Claim C8: `addChild(comm)` returns the membership size counted before the
insert — the size of the active set plus the size of the pending-add set at
the moment of the call — and its only effect is to insert `comm` into the
pending-add set. -/
theorem addChild_returns_size_before (t : TreeNetworkNode) (comm : ℕ) :
    (t.addChild comm).1 = t.comms.card + t.newcomms.card ∧
    (t.addChild comm).2 =
      { t with newcomms := insert comm t.newcomms } := by
  exact ⟨rfl, rfl⟩

theorem D.sub_fin_fin (x y : ℝ) : (D.fin x).sub (D.fin y) = D.fin (x - y) := by
  show D.fin (x + -y) = D.fin (x - y)
  rw [← sub_eq_add_neg]

theorem D.add_fin_fin (x y : ℝ) : (D.fin x).add (D.fin y) = D.fin (x + y) := rfl

/-! ### Theorems about rejuvenate: claims C10, C1, C4, C3 -/

/-- Claim C10: `rejuvenate` never modifies the population's log-weight vector,
ancestor vector, `ess`, `logLikelihood` or `logIncrements`: whatever the
inputs, these fields are identical before and after the call (only the
per-particle slots, the shared scratch slot and the sampler's
`lastAcceptRate` change). -/
theorem rejuvenate_frame (env : Env) (iFirst iLast : ℕ) (st : Sir) (pop : Pop) (c : Ctrs) :
    (rejuvenate env iFirst iLast st pop c).2.1.logWeights = pop.logWeights ∧
    (rejuvenate env iFirst iLast st pop c).2.1.ancestors = pop.ancestors ∧
    (rejuvenate env iFirst iLast st pop c).2.1.ess = pop.ess ∧
    (rejuvenate env iFirst iLast st pop c).2.1.logLikelihood = pop.logLikelihood ∧
    (rejuvenate env iFirst iLast st pop c).2.1.logIncrements = pop.logIncrements := by
  unfold rejuvenate
  cases h : st.lastResample <;> simp [h]

/-- The try block never touches the uniform-draw counter. -/
theorem tryPhase_unif (env : Env) (iFirst iLast : ℕ) (ready : Bool) (c : Ctrs)
    (s1 s2 : PF) (o2 : Out) :
    (tryPhase env iFirst iLast ready c s1 s2 o2).2.2.2.unif = c.unif := by
  unfold tryPhase
  cases env.propose c.prop ready iFirst s1 s2 o2 with
  | exn s2a o2a => rfl
  | ok s2a o2a =>
    by_cases h : s2a.logPrior.isFinite = true
    · simp only [h, if_true]
      cases env.filterF c.filt iFirst iLast s2a o2a <;> rfl
    · simp only [Bool.not_eq_true] at h
      simp only [h, Bool.false_eq_true, if_false]

/-- Claim C1: in one rejuvenation move, a non-finite proposed log-likelihood
(after the try block, which maps caught exceptions to `-infinity`) always
rejects; a non-finite current log-likelihood with a finite proposed one always
accepts; and when both are finite, acceptance is decided by
`log u < logratio`, where `u` is the uniform draw consumed at the current
counter and `logratio` is the spec's Metropolis-Hastings ratio
`specLogratio` — `(proposedLL - currentLL) + (proposedPrior - currentPrior) +
(currentProposalDensity - proposedProposalDensity)` with the proposal-density
term zero exactly when both log-proposal-densities are non-finite. -/
theorem rejuvenateMove_accept_spec (env : Env) (iFirst iLast : ℕ) (ready : Bool)
    (c : Ctrs) (s1 : PF) (o1 : Out) (s2 : PF) (o2 : Out) (naccept : ℕ) :
    ((tryPhase env iFirst iLast ready c s1 s2 o2).1.logLikelihood.isFinite = false →
      (rejuvenateMove env iFirst iLast ready c s1 o1 s2 o2 naccept).accept = false) ∧
    ((tryPhase env iFirst iLast ready c s1 s2 o2).1.logLikelihood.isFinite = true →
      s1.logLikelihood.isFinite = false →
      (rejuvenateMove env iFirst iLast ready c s1 o1 s2 o2 naccept).accept = true) ∧
    ((tryPhase env iFirst iLast ready c s1 s2 o2).1.logLikelihood.isFinite = true →
      s1.logLikelihood.isFinite = true →
      (rejuvenateMove env iFirst iLast ready c s1 o1 s2 o2 naccept).accept =
        D.ltb (D.fin (Real.log (env.uniform c.unif)))
          (specLogratio s1 (tryPhase env iFirst iLast ready c s1 s2 o2).1)) := by
  have hu := tryPhase_unif env iFirst iLast ready c s1 s2 o2
  refine ⟨?_, ?_, ?_⟩
  · intro h2
    unfold rejuvenateMove
    simp [h2]
  · intro h2 h1
    unfold rejuvenateMove
    simp [h2, h1]
  · intro h2 h1
    have hacc : (rejuvenateMove env iFirst iLast ready c s1 o1 s2 o2 naccept).accept =
        acceptOf s1 (tryPhase env iFirst iLast ready c s1 s2 o2).1 (env.uniform c.unif) := by
      unfold rejuvenateMove
      simp only [h2, h1, hu, Bool.true_eq_false, if_false]
      split <;> simp_all
    rw [hacc]
    unfold acceptOf specLogratio
    simp [h2, h1]

/-- Witness for C1 at a concrete environment (identity proposal, identity
filter, uniform draw one half) and all-zero particle states: both
log-likelihoods are finite, so the move's accept flag equals the comparison of
`log(1/2)` with the spec log-ratio. -/
theorem rejuvenateMove_accept_spec_witness :
    (tryPhase env0 0 1 false c0 pf0 pf0 o0).1.logLikelihood.isFinite = true ∧
    pf0.logLikelihood.isFinite = true ∧
    (rejuvenateMove env0 0 1 false c0 pf0 o0 pf0 o0 0).accept =
      D.ltb (D.fin (Real.log (env0.uniform c0.unif)))
        (specLogratio pf0 (tryPhase env0 0 1 false c0 pf0 pf0 o0).1) :=
  ⟨rfl, rfl, (rejuvenateMove_accept_spec env0 0 1 false c0 pf0 o0 pf0 o0 0).2.2 rfl rfl⟩

/-- Claim C4 (amended): if the proposal call returns without exception and the
proposed log-prior is non-finite, then `filter.filter` is not invoked for that
proposal; and the move is rejected — particle slot unchanged, accept counter
not incremented — provided the log-likelihood field the proposal leaves in the
scratch slot is itself non-finite.  (The source skips the filter but does not
force the scratch log-likelihood to `-infinity`, so a stale finite value can
still be accepted; see the counterexample.) -/
theorem rejuvenateMove_nonfinite_prior (env : Env) (iFirst iLast : ℕ) (ready : Bool)
    (c : Ctrs) (s1 : PF) (o1 : Out) (s2 : PF) (o2 : Out) (naccept : ℕ)
    (s2a : PF) (o2a : Out)
    (hp : env.propose c.prop ready iFirst s1 s2 o2 = Outcome.ok s2a o2a)
    (hpr : s2a.logPrior.isFinite = false) :
    (rejuvenateMove env iFirst iLast ready c s1 o1 s2 o2 naccept).filterInvoked = false ∧
    (s2a.logLikelihood.isFinite = false →
      (rejuvenateMove env iFirst iLast ready c s1 o1 s2 o2 naccept).accept = false ∧
      (rejuvenateMove env iFirst iLast ready c s1 o1 s2 o2 naccept).s1 = s1 ∧
      (rejuvenateMove env iFirst iLast ready c s1 o1 s2 o2 naccept).o1 = o1 ∧
      (rejuvenateMove env iFirst iLast ready c s1 o1 s2 o2 naccept).naccept = naccept) := by
  have ht : tryPhase env iFirst iLast ready c s1 s2 o2 =
      (s2a, o2a, false, { c with prop := c.prop + 1 }) := by
    unfold tryPhase
    rw [hp]
    simp [hpr]
  constructor
  · unfold rejuvenateMove
    rw [ht]
    simp only [apply_ite MoveResult.filterInvoked, ite_self]
  · intro hll
    unfold rejuvenateMove
    rw [ht]
    simp [hll]

/-- Witness for the amended C4: a proposal with `-infinity` log-prior and NaN
stale log-likelihood skips the filter and is rejected. -/
theorem rejuvenateMove_nonfinite_prior_witness :
    (envC4r.propose c0.prop false 0 pf0 pf0 o0 = Outcome.ok pfC4r o0) ∧
    pfC4r.logPrior.isFinite = false ∧
    pfC4r.logLikelihood.isFinite = false ∧
    (rejuvenateMove envC4r 0 1 false c0 pf0 o0 pf0 o0 0).filterInvoked = false ∧
    (rejuvenateMove envC4r 0 1 false c0 pf0 o0 pf0 o0 0).accept = false ∧
    (rejuvenateMove envC4r 0 1 false c0 pf0 o0 pf0 o0 0).naccept = 0 := by
  have h := rejuvenateMove_nonfinite_prior envC4r 0 1 false c0 pf0 o0 pf0 o0 0
    pfC4r o0 rfl rfl
  exact ⟨rfl, rfl, rfl, h.1, (h.2 rfl).1, (h.2 rfl).2.2.2⟩

/-- Counterexample to claim C4 as stated: with a proposed state whose
log-prior is non-finite but whose scratch slot still holds a stale finite
log-likelihood, and a particle whose current log-likelihood is non-finite, the
move skips `filter.filter` (as claimed) yet is accepted: the slot is swapped
and the accept counter incremented, contradicting "the move is rejected". -/
theorem rejuvenateMove_nonfinite_prior_cex :
    (envC4.propose c0.prop false 0 pfNoLL pf0 o0 = Outcome.ok pfC4 o0) ∧
    pfC4.logPrior.isFinite = false ∧
    (rejuvenateMove envC4 0 1 false c0 pfNoLL o0 pf0 o0 0).filterInvoked = false ∧
    (rejuvenateMove envC4 0 1 false c0 pfNoLL o0 pf0 o0 0).accept = true ∧
    (rejuvenateMove envC4 0 1 false c0 pfNoLL o0 pf0 o0 0).naccept = 1 ∧
    (rejuvenateMove envC4 0 1 false c0 pfNoLL o0 pf0 o0 0).s1 = pfC4 := by
  refine ⟨rfl, rfl, ?_, ?_, ?_, ?_⟩ <;> rfl

/-- A conditional increment is bounded by the increment. -/
theorem ite_succ_le (P : Prop) [Decidable P] (n : ℕ) : (if P then n + 1 else n) ≤ n + 1 := by
  split <;> omega

/-- One rejuvenation move increments the accept counter by at most one. -/
theorem rejuvenateMove_naccept_le (env : Env) (iFirst iLast : ℕ) (ready : Bool)
    (c : Ctrs) (s1 : PF) (o1 : Out) (s2 : PF) (o2 : Out) (naccept : ℕ) :
    (rejuvenateMove env iFirst iLast ready c s1 o1 s2 o2 naccept).naccept ≤ naccept + 1 := by
  unfold rejuvenateMove
  simp only [apply_ite MoveResult.naccept]
  exact ite_succ_le _ _

/-- The move loop increments the accept counter by at most the number of
moves. -/
theorem movesLoop_naccept_le (env : Env) (iFirst iLast : ℕ) (ready : Bool) :
    ∀ (k : ℕ) (st : RejState),
      (movesLoop env iFirst iLast ready k st).naccept ≤ st.naccept + k := by
  intro k
  induction k with
  | zero => intro st; exact Nat.le_refl _
  | succ k ih =>
    intro st
    have h1 := rejuvenateMove_naccept_le env iFirst iLast ready st.c st.s1 st.o1
      st.s2 st.o2 st.naccept
    have h2 := ih ⟨(rejuvenateMove env iFirst iLast ready st.c st.s1 st.o1 st.s2 st.o2 st.naccept).s1,
      (rejuvenateMove env iFirst iLast ready st.c st.s1 st.o1 st.s2 st.o2 st.naccept).o1,
      (rejuvenateMove env iFirst iLast ready st.c st.s1 st.o1 st.s2 st.o2 st.naccept).s2,
      (rejuvenateMove env iFirst iLast ready st.c st.s1 st.o1 st.s2 st.o2 st.naccept).o2,
      (rejuvenateMove env iFirst iLast ready st.c st.s1 st.o1 st.s2 st.o2 st.naccept).naccept,
      (rejuvenateMove env iFirst iLast ready st.c st.s1 st.o1 st.s2 st.o2 st.naccept).c⟩
    have hstep : movesLoop env iFirst iLast ready (k + 1) st =
        movesLoop env iFirst iLast ready k
          ⟨(rejuvenateMove env iFirst iLast ready st.c st.s1 st.o1 st.s2 st.o2 st.naccept).s1,
           (rejuvenateMove env iFirst iLast ready st.c st.s1 st.o1 st.s2 st.o2 st.naccept).o1,
           (rejuvenateMove env iFirst iLast ready st.c st.s1 st.o1 st.s2 st.o2 st.naccept).s2,
           (rejuvenateMove env iFirst iLast ready st.c st.s1 st.o1 st.s2 st.o2 st.naccept).o2,
           (rejuvenateMove env iFirst iLast ready st.c st.s1 st.o1 st.s2 st.o2 st.naccept).naccept,
           (rejuvenateMove env iFirst iLast ready st.c st.s1 st.o1 st.s2 st.o2 st.naccept).c⟩ := rfl
    rw [hstep]
    simp only at h2
    omega

/-- The particle loop increments the accept counter by at most the number of
moves times the number of particles processed. -/
theorem particlesLoop_naccept_le (env : Env) (iFirst iLast : ℕ) (ready : Bool) (nmoves : ℕ) :
    ∀ (l : List (PF × Out)) (s2 : PF) (o2 : Out) (na : ℕ) (c : Ctrs),
      (particlesLoop env iFirst iLast ready nmoves l s2 o2 na c).2.2.2.1 ≤
        na + nmoves * l.length := by
  intro l
  induction l with
  | nil =>
    intro s2 o2 na c
    simp [particlesLoop]
  | cons hd rest ih =>
    intro s2 o2 na c
    rcases hd with ⟨s1, o1⟩
    have hm := movesLoop_naccept_le env iFirst iLast ready nmoves ⟨s1, o1, s2, o2, na, c⟩
    simp only at hm
    have hr := ih (movesLoop env iFirst iLast ready nmoves ⟨s1, o1, s2, o2, na, c⟩).s2
      (movesLoop env iFirst iLast ready nmoves ⟨s1, o1, s2, o2, na, c⟩).o2
      (movesLoop env iFirst iLast ready nmoves ⟨s1, o1, s2, o2, na, c⟩).naccept
      (movesLoop env iFirst iLast ready nmoves ⟨s1, o1, s2, o2, na, c⟩).c
    have hstep : particlesLoop env iFirst iLast ready nmoves ((s1, o1) :: rest) s2 o2 na c =
        (((movesLoop env iFirst iLast ready nmoves ⟨s1, o1, s2, o2, na, c⟩).s1,
          (movesLoop env iFirst iLast ready nmoves ⟨s1, o1, s2, o2, na, c⟩).o1) ::
            (particlesLoop env iFirst iLast ready nmoves rest
              (movesLoop env iFirst iLast ready nmoves ⟨s1, o1, s2, o2, na, c⟩).s2
              (movesLoop env iFirst iLast ready nmoves ⟨s1, o1, s2, o2, na, c⟩).o2
              (movesLoop env iFirst iLast ready nmoves ⟨s1, o1, s2, o2, na, c⟩).naccept
              (movesLoop env iFirst iLast ready nmoves ⟨s1, o1, s2, o2, na, c⟩).c).1,
         (particlesLoop env iFirst iLast ready nmoves rest
              (movesLoop env iFirst iLast ready nmoves ⟨s1, o1, s2, o2, na, c⟩).s2
              (movesLoop env iFirst iLast ready nmoves ⟨s1, o1, s2, o2, na, c⟩).o2
              (movesLoop env iFirst iLast ready nmoves ⟨s1, o1, s2, o2, na, c⟩).naccept
              (movesLoop env iFirst iLast ready nmoves ⟨s1, o1, s2, o2, na, c⟩).c).2) := rfl
    rw [hstep]
    simp only [List.length_cons, Nat.mul_succ]
    omega

/-- Claim C3 (amended): when no resample event occurred, `rejuvenate` is a
no-op, so `lastAcceptRate` keeps its prior value; and whenever a rejuvenation
pass executes with `nmoves ≥ 1` on a non-empty population, the recomputed
`lastAcceptRate` is a finite value in [0,1] — so the rate stays in [0,1]
across such calls.  (With `nmoves = 0`, or an empty population, and a pending
resample, the source computes the IEEE quotient `0.0/0` and `lastAcceptRate`
becomes NaN; see the counterexample.) -/
theorem rejuvenate_acceptRate (env : Env) (iFirst iLast : ℕ) (st : Sir) (pop : Pop)
    (c : Ctrs) :
    (st.lastResample = false → rejuvenate env iFirst iLast st pop c = (st, pop, c)) ∧
    (1 ≤ st.nmoves → 1 ≤ pop.size → D.inUnit st.lastAcceptRate →
      D.inUnit (rejuvenate env iFirst iLast st pop c).1.lastAcceptRate) := by
  constructor
  · intro h
    unfold rejuvenate
    rw [h]
    simp
  · intro hn hs hunit
    unfold rejuvenate
    cases hls : st.lastResample
    · simpa using hunit
    · simp only [if_true]
      have h1 := particlesLoop_naccept_le env iFirst iLast (env.adapterReady st.adapterState)
        st.nmoves (pop.s1s.zip pop.out1s) pop.s2 pop.out2 0 c
      have hlen : (pop.s1s.zip pop.out1s).length ≤ pop.size := by
        rw [List.length_zip]
        exact Nat.min_le_left _ _
      have hna : (particlesLoop env iFirst iLast (env.adapterReady st.adapterState)
          st.nmoves (pop.s1s.zip pop.out1s) pop.s2 pop.out2 0 c).2.2.2.1 ≤
          st.nmoves * pop.size := by
        calc (particlesLoop env iFirst iLast (env.adapterReady st.adapterState)
              st.nmoves (pop.s1s.zip pop.out1s) pop.s2 pop.out2 0 c).2.2.2.1
            ≤ 0 + st.nmoves * (pop.s1s.zip pop.out1s).length := h1
          _ ≤ st.nmoves * pop.size := by
              rw [Nat.zero_add]
              exact Nat.mul_le_mul_left _ hlen
      have hnz : ¬ st.nmoves * pop.size = 0 := by
        have : 0 < st.nmoves * pop.size := Nat.mul_pos hn hs
        omega
      simp only [hnz, if_false]
      refine ⟨((particlesLoop env iFirst iLast (env.adapterReady st.adapterState)
          st.nmoves (pop.s1s.zip pop.out1s) pop.s2 pop.out2 0 c).2.2.2.1 : ℝ) /
            ((st.nmoves * pop.size : ℕ) : ℝ), ?_, ?_, ?_⟩
      · push_cast
        rfl
      · positivity
      · rw [div_le_one (by positivity)]
        exact_mod_cast hna

/-- Witness for the amended C3: one move, one particle, prior rate 0; after
rejuvenation the rate is again in [0,1]. -/
theorem rejuvenate_acceptRate_witness :
    stW.lastResample = true ∧ 1 ≤ stW.nmoves ∧ 1 ≤ popW.size ∧
    D.inUnit stW.lastAcceptRate ∧
    D.inUnit (rejuvenate env0 0 1 stW popW c0).1.lastAcceptRate := by
  refine ⟨rfl, Nat.le_refl 1, Nat.le_refl 1, ⟨0, rfl, le_refl 0, zero_le_one⟩, ?_⟩
  exact (rejuvenate_acceptRate env0 0 1 stW popW c0).2 (Nat.le_refl 1) (Nat.le_refl 1)
    ⟨0, rfl, le_refl 0, zero_le_one⟩

/-- Counterexample to claim C3 as stated: with `nmoves = 0` and a pending
resample on a one-particle population, `rejuvenate` is not a no-op: it divides
0 by 0 and sets `lastAcceptRate` to NaN, which is neither in [0,1] nor equal
to the prior value 0. -/
theorem rejuvenate_acceptRate_cex :
    stC3.nmoves = 0 ∧ stC3.lastResample = true ∧ stC3.lastAcceptRate = D.fin 0 ∧
    (rejuvenate env0 0 1 stC3 popW c0).1.lastAcceptRate = D.nan ∧
    ¬ D.inUnit D.nan ∧ D.nan ≠ D.fin 0 := by
  refine ⟨rfl, rfl, rfl, rfl, ?_, ?_⟩
  · rintro ⟨x, hx, -, -⟩
    exact D.noConfusion hx
  · intro hx
    exact D.noConfusion hx

/-! ### Per-particle slot loops: frame, characterisation, commutativity -/

/-- A slot update leaves the non-indexed fields and all four list lengths
unchanged. -/
theorem slotAt_const (σ : ℕ → PF × Out × D × ℤ → PF × Out × D × ℤ) (pop : Pop) (p : ℕ) :
    (slotAt σ pop p).ess = pop.ess ∧
    (slotAt σ pop p).logLikelihood = pop.logLikelihood ∧
    (slotAt σ pop p).logIncrements = pop.logIncrements ∧
    (slotAt σ pop p).s2 = pop.s2 ∧
    (slotAt σ pop p).out2 = pop.out2 ∧
    (slotAt σ pop p).s1s.length = pop.s1s.length ∧
    (slotAt σ pop p).out1s.length = pop.out1s.length ∧
    (slotAt σ pop p).logWeights.length = pop.logWeights.length ∧
    (slotAt σ pop p).ancestors.length = pop.ancestors.length := by
  unfold slotAt
  simp

/-- A whole slot loop leaves the non-indexed fields and all four list lengths
unchanged. -/
theorem foldl_slotAt_const (σ : ℕ → PF × Out × D × ℤ → PF × Out × D × ℤ) :
    ∀ (l : List ℕ) (pop : Pop),
    (l.foldl (slotAt σ) pop).ess = pop.ess ∧
    (l.foldl (slotAt σ) pop).logLikelihood = pop.logLikelihood ∧
    (l.foldl (slotAt σ) pop).logIncrements = pop.logIncrements ∧
    (l.foldl (slotAt σ) pop).s2 = pop.s2 ∧
    (l.foldl (slotAt σ) pop).out2 = pop.out2 ∧
    (l.foldl (slotAt σ) pop).s1s.length = pop.s1s.length ∧
    (l.foldl (slotAt σ) pop).out1s.length = pop.out1s.length ∧
    (l.foldl (slotAt σ) pop).logWeights.length = pop.logWeights.length ∧
    (l.foldl (slotAt σ) pop).ancestors.length = pop.ancestors.length := by
  intro l
  induction l with
  | nil => intro pop; exact ⟨rfl, rfl, rfl, rfl, rfl, rfl, rfl, rfl, rfl⟩
  | cons q rest ih =>
    intro pop
    have h1 := slotAt_const σ pop q
    have h2 := ih (slotAt σ pop q)
    have hstep : ((q :: rest).foldl (slotAt σ) pop) = rest.foldl (slotAt σ) (slotAt σ pop q) := rfl
    rw [hstep]
    exact ⟨h2.1.trans h1.1, h2.2.1.trans h1.2.1, h2.2.2.1.trans h1.2.2.1,
      h2.2.2.2.1.trans h1.2.2.2.1, h2.2.2.2.2.1.trans h1.2.2.2.2.1,
      h2.2.2.2.2.2.1.trans h1.2.2.2.2.2.1, h2.2.2.2.2.2.2.1.trans h1.2.2.2.2.2.2.1,
      h2.2.2.2.2.2.2.2.1.trans h1.2.2.2.2.2.2.2.1, h2.2.2.2.2.2.2.2.2.trans h1.2.2.2.2.2.2.2.2⟩

/-- A slot loop over indices not containing `p` leaves slot `p` unchanged. -/
theorem foldl_slotAt_frame (σ : ℕ → PF × Out × D × ℤ → PF × Out × D × ℤ) :
    ∀ (l : List ℕ) (p : ℕ), p ∉ l → ∀ (pop : Pop),
    (l.foldl (slotAt σ) pop).s1s[p]? = pop.s1s[p]? ∧
    (l.foldl (slotAt σ) pop).out1s[p]? = pop.out1s[p]? ∧
    (l.foldl (slotAt σ) pop).logWeights[p]? = pop.logWeights[p]? ∧
    (l.foldl (slotAt σ) pop).ancestors[p]? = pop.ancestors[p]? := by
  intro l
  induction l with
  | nil => intro p _ pop; exact ⟨rfl, rfl, rfl, rfl⟩
  | cons q rest ih =>
    intro p hp pop
    have hq : q ≠ p := fun h => hp (h ▸ List.mem_cons_self q rest)
    have hrest : p ∉ rest := fun h => hp (List.mem_cons_of_mem q h)
    have h2 := ih p hrest (slotAt σ pop q)
    have hstep : ((q :: rest).foldl (slotAt σ) pop) = rest.foldl (slotAt σ) (slotAt σ pop q) := rfl
    rw [hstep]
    refine ⟨h2.1.trans ?_, h2.2.1.trans ?_, h2.2.2.1.trans ?_, h2.2.2.2.trans ?_⟩ <;>
      simp [slotAt, List.getElem?_set_ne hq]

/-- Reading a slot other than the one just written sees the original values. -/
theorem slotView_slotAt_ne (σ : ℕ → PF × Out × D × ℤ → PF × Out × D × ℤ)
    (pop : Pop) (p q : ℕ) (h : q ≠ p) :
    slotView (slotAt σ pop q) p = slotView pop p := by
  unfold slotView slotAt
  simp [List.getD_eq_getElem?_getD, List.getElem?_set_ne h]

/-- Characterisation of a slot loop over a duplicate-free index list: slot `p`
of the result holds exactly `σ p` applied to the original slot `p`. -/
theorem foldl_slotAt_get (σ : ℕ → PF × Out × D × ℤ → PF × Out × D × ℤ) :
    ∀ (l : List ℕ), l.Nodup → ∀ (p : ℕ), p ∈ l → ∀ (pop : Pop),
    p < pop.s1s.length → p < pop.out1s.length → p < pop.logWeights.length →
    p < pop.ancestors.length →
    (l.foldl (slotAt σ) pop).s1s[p]? = some (σ p (slotView pop p)).1 ∧
    (l.foldl (slotAt σ) pop).out1s[p]? = some (σ p (slotView pop p)).2.1 ∧
    (l.foldl (slotAt σ) pop).logWeights[p]? = some (σ p (slotView pop p)).2.2.1 ∧
    (l.foldl (slotAt σ) pop).ancestors[p]? = some (σ p (slotView pop p)).2.2.2 := by
  intro l
  induction l with
  | nil => intro _ p hp; exact absurd hp (List.not_mem_nil p)
  | cons q rest ih =>
    intro hnd p hp pop h1 h2 h3 h4
    have hstep : ((q :: rest).foldl (slotAt σ) pop) = rest.foldl (slotAt σ) (slotAt σ pop q) := rfl
    rw [hstep]
    by_cases hpq : p = q
    · subst hpq
      have hrest : p ∉ rest := (List.nodup_cons.mp hnd).1
      have hframe := foldl_slotAt_frame σ rest p hrest (slotAt σ pop p)
      refine ⟨hframe.1.trans ?_, hframe.2.1.trans ?_, hframe.2.2.1.trans ?_,
        hframe.2.2.2.trans ?_⟩ <;>
        simp [slotAt, List.getElem?_set_self, h1, h2, h3, h4]
    · have hq : q ≠ p := fun h => hpq h.symm
      have hrest : p ∈ rest := by
        rcases List.mem_cons.mp hp with h | h
        · exact absurd h hpq
        · exact h
      have hres := ih (List.nodup_cons.mp hnd).2 p hrest (slotAt σ pop q)
        (by simpa [slotAt] using h1) (by simpa [slotAt] using h2)
        (by simpa [slotAt] using h3) (by simpa [slotAt] using h4)
      rw [slotView_slotAt_ne σ pop p q hq] at hres
      exact hres

/-- Two slot updates at arbitrary indices commute. -/
theorem slotAt_comm (σ : ℕ → PF × Out × D × ℤ → PF × Out × D × ℤ) (pop : Pop) (p q : ℕ) :
    slotAt σ (slotAt σ pop p) q = slotAt σ (slotAt σ pop q) p := by
  by_cases h : p = q
  · subst h; rfl
  · have h' : q ≠ p := fun hh => h hh.symm
    simp only [slotAt, slotView, List.getD_eq_getElem?_getD,
      List.getElem?_set_ne h, List.getElem?_set_ne h']
    rw [List.set_comm _ _ _ h, List.set_comm _ _ _ h, List.set_comm _ _ _ h,
      List.set_comm _ _ _ h]

/-- A slot loop yields the same population for any permutation of its index
list. -/
theorem foldl_slotAt_perm (σ : ℕ → PF × Out × D × ℤ → PF × Out × D × ℤ)
    {l1 l2 : List ℕ} (hp : l1.Perm l2) (pop : Pop) :
    l1.foldl (slotAt σ) pop = l2.foldl (slotAt σ) pop :=
  hp.foldl_eq' (fun x _ y _ z => slotAt_comm σ z x y) pop

/-! ### Theorems about init, step and term: claims C7, C9, C5, C6 -/

/-- Claim C7: after `init`, every slot `p < size` has `logWeights[p]` equal to
that particle's inner-filter log-likelihood after the t0 correction and
`ancestors[p] = p`; the prior output is cleared; `lastResample` is false and
`lastAcceptRate` is 0. -/
theorem init_spec (env : Env) (iFirst : ℕ) (st : Sir) (pop : Pop) (out : List ℕ)
    (h2 : pop.out1s.length = pop.size) (h3 : pop.logWeights.length = pop.size)
    (h4 : pop.ancestors.length = pop.size) :
    (∀ p : ℕ, p < pop.size →
      (init env iFirst st pop out).2.1.logWeights[p]? =
        some (env.initFilter iFirst p (pop.s1s.getD p default)
          (pop.out1s.getD p default)).1.logLikelihood ∧
      (init env iFirst st pop out).2.1.ancestors[p]? = some ((p : ℕ) : ℤ) ∧
      (init env iFirst st pop out).2.1.s1s[p]? =
        some (env.initFilter iFirst p (pop.s1s.getD p default)
          (pop.out1s.getD p default)).1) ∧
    (init env iFirst st pop out).2.2 = [] ∧
    (init env iFirst st pop out).1.lastResample = false ∧
    (init env iFirst st pop out).1.lastAcceptRate = D.fin 0 := by
  refine ⟨?_, rfl, rfl, rfl⟩
  intro p hp
  have hp1 : p < pop.s1s.length := hp
  have hp2 : p < pop.out1s.length := by
    have := h2
    simp only [Pop.size] at this
    omega
  have hp3 : p < pop.logWeights.length := by
    have := h3
    simp only [Pop.size] at this
    omega
  have hp4 : p < pop.ancestors.length := by
    have := h4
    simp only [Pop.size] at this
    omega
  have hg := foldl_slotAt_get (initSlot env iFirst) (List.range pop.size)
    (List.nodup_range _) p (List.mem_range.mpr hp) pop hp1 hp2 hp3 hp4
  exact ⟨hg.2.2.1, hg.2.2.2, hg.1⟩

/-- Witness for C7 on a one-particle population with a non-empty prior output
buffer. -/
theorem init_spec_witness :
    (0 : ℕ) < popW.size ∧
    (init env0 0 stW popW [5]).2.1.logWeights[0]? =
      some (env0.initFilter 0 0 (popW.s1s.getD 0 default)
        (popW.out1s.getD 0 default)).1.logLikelihood ∧
    (init env0 0 stW popW [5]).2.1.ancestors[0]? = some ((0 : ℕ) : ℤ) ∧
    (init env0 0 stW popW [5]).2.2 = [] ∧
    (init env0 0 stW popW [5]).1.lastAcceptRate = D.fin 0 := by
  have h := init_spec env0 0 stW popW [5] rfl rfl rfl
  have h0 := h.1 0 (by decide)
  exact ⟨by decide, h0.1, h0.2.1, h.2.1, h.2.2.2⟩

/-- Claim C9: the per-particle loops of `init` and of step's advance phase are
order-independent: each iteration reads and writes only its own slot (the
`slotAt` shape), and in the advance loop every particle's filter step starts
from the same re-set schedule position `iter`; executing the particle indices
in any order therefore yields the same population. -/
theorem perParticle_order_independent (env : Env) (iFirst iLast iter : ℕ) (pop : Pop)
    (l : List ℕ) (hperm : l.Perm (List.range pop.size)) :
    l.foldl (slotAt (initSlot env iFirst)) pop =
      (List.range pop.size).foldl (slotAt (initSlot env iFirst)) pop ∧
    l.foldl (slotAt (advanceSlot env iLast iter)) pop =
      (List.range pop.size).foldl (slotAt (advanceSlot env iLast iter)) pop :=
  ⟨foldl_slotAt_perm _ hperm pop, foldl_slotAt_perm _ hperm pop⟩

/-- Witness for C9: running the two-particle init loop in reversed order gives
the same population. -/
theorem perParticle_order_independent_witness :
    ([1, 0] : List ℕ).Perm (List.range popW2.size) ∧
    [1, 0].foldl (slotAt (initSlot env0 0)) popW2 =
      (List.range popW2.size).foldl (slotAt (initSlot env0 0)) popW2 := by
  have hp : ([1, 0] : List ℕ).Perm (List.range popW2.size) := by decide
  exact ⟨hp, (perParticle_order_independent env0 0 1 0 popW2 [1, 0] hp).1⟩

/-- Claim C5: `step` repeats its inner pass — adapt, resample, rejuvenate
(targeting `iter + 1`), report, then advance every particle one schedule step
adding the returned log-increment to that particle's log-weight — until the
schedule is exhausted or the reached element is observed; on loop exit it
recomputes `ess` by the log-domain ESS reduction over the log-weights, sets
`logIncrements` at the current observation index to
`(combined log-weight) - logLikelihood`, and then sets `logLikelihood` to the
combined log-weight. -/
theorem step_structure (env : Env) (iFirst iLast : ℕ) (fuel iter : ℕ) (st : Sir)
    (pop : Pop) (c : Ctrs) :
    (stepPass env iFirst iLast iter st pop c =
      (env.stepAdvance iLast iter,
       (rejuvenate env iFirst (iter + 1)
         (resample env iter (adapt env st pop) pop c).1
         (resample env iter (adapt env st pop) pop c).2.1
         (resample env iter (adapt env st pop) pop c).2.2).1,
       (List.range (rejuvenate env iFirst (iter + 1)
           (resample env iter (adapt env st pop) pop c).1
           (resample env iter (adapt env st pop) pop c).2.1
           (resample env iter (adapt env st pop) pop c).2.2).2.1.size).foldl
         (slotAt (advanceSlot env iLast iter))
         (rejuvenate env iFirst (iter + 1)
           (resample env iter (adapt env st pop) pop c).1
           (resample env iter (adapt env st pop) pop c).2.1
           (resample env iter (adapt env st pop) pop c).2.2).2.1,
       (rejuvenate env iFirst (iter + 1)
         (resample env iter (adapt env st pop) pop c).1
         (resample env iter (adapt env st pop) pop c).2.1
         (resample env iter (adapt env st pop) pop c).2.2).2.2)) ∧
    (step env iFirst iLast (fuel + 1) iter st pop c =
      if (stepPass env iFirst iLast iter st pop c).1 + 1 ≠ iLast ∧
          env.obs (stepPass env iFirst iLast iter st pop c).1 = false then
        step env iFirst iLast fuel (stepPass env iFirst iLast iter st pop c).1
          (stepPass env iFirst iLast iter st pop c).2.1
          (stepPass env iFirst iLast iter st pop c).2.2.1
          (stepPass env iFirst iLast iter st pop c).2.2.2
      else
        ((stepPass env iFirst iLast iter st pop c).1,
         (stepPass env iFirst iLast iter st pop c).2.1,
         stepExit env (stepPass env iFirst iLast iter st pop c).1
           (stepPass env iFirst iLast iter st pop c).2.2.1,
         (stepPass env iFirst iLast iter st pop c).2.2.2)) ∧
    (stepExit env iter pop = { pop with
        ess := essReduce pop.logWeights,
        logIncrements := Function.update pop.logIncrements (env.obsIdx iter)
          ((logsumexpD pop.logWeights).sub pop.logLikelihood),
        logLikelihood := logsumexpD pop.logWeights }) ∧
    (∀ p : ℕ, p < pop.size → pop.out1s.length = pop.size →
      pop.logWeights.length = pop.size → pop.ancestors.length = pop.size →
      ((List.range pop.size).foldl (slotAt (advanceSlot env iLast iter)) pop).logWeights[p]? =
        some ((pop.logWeights.getD p D.nan).add
          ((env.fstep p iter iLast (pop.s1s.getD p default)
            (pop.out1s.getD p default)).1.logIncrements
              (env.obsIdx (env.stepAdvance iLast iter))))) := by
  refine ⟨rfl, ?_, rfl, ?_⟩
  · by_cases hcond : (stepPass env iFirst iLast iter st pop c).1 + 1 ≠ iLast ∧
        env.obs (stepPass env iFirst iLast iter st pop c).1 = false
    · simp only [step, stepLoop, if_pos hcond]
    · simp only [step, stepLoop, if_neg hcond]
  · intro p hp hl2 hl3 hl4
    have hp1 : p < pop.s1s.length := hp
    have hp2 : p < pop.out1s.length := by
      simp only [Pop.size] at hl2
      omega
    have hp3 : p < pop.logWeights.length := by
      simp only [Pop.size] at hl3
      omega
    have hp4 : p < pop.ancestors.length := by
      simp only [Pop.size] at hl4
      omega
    have hg := foldl_slotAt_get (advanceSlot env iLast iter) (List.range pop.size)
      (List.nodup_range _) p (List.mem_range.mpr hp) pop hp1 hp2 hp3 hp4
    exact hg.2.2.1

/-- Witness for C5's per-particle advance on the one-particle population. -/
theorem step_structure_witness :
    (0 : ℕ) < popW.size ∧
    ((List.range popW.size).foldl (slotAt (advanceSlot env0 1 0)) popW).logWeights[0]? =
      some ((popW.logWeights.getD 0 D.nan).add
        ((env0.fstep 0 0 1 (popW.s1s.getD 0 default)
          (popW.out1s.getD 0 default)).1.logIncrements
            (env0.obsIdx (env0.stepAdvance 1 0)))) :=
  ⟨by decide, (step_structure env0 0 1 0 0 stW popW c0).2.2.2 0 (by decide) rfl rfl rfl⟩

/-- Claim C6: `term` adds `logsumexp(logWeights) - log(size)` to the
population's log-likelihood and then invokes the inner filter's samplePath for
every particle; in particular, a population of size 4 with all log-weights 2.0
and log-likelihood 10.0 before the call has log-likelihood 12.0 after it. -/
theorem term_spec (env : Env) (pop : Pop) :
    ((term env pop).logLikelihood =
      pop.logLikelihood.add
        ((logsumexpD pop.logWeights).sub (D.fin (Real.log (pop.size : ℝ))))) ∧
    (∀ p : ℕ, p < pop.size → pop.out1s.length = pop.size →
      pop.logWeights.length = pop.size → pop.ancestors.length = pop.size →
      (term env pop).s1s[p]? =
        some (env.samplePath p (pop.s1s.getD p default) (pop.out1s.getD p default)).1 ∧
      (term env pop).out1s[p]? =
        some (env.samplePath p (pop.s1s.getD p default) (pop.out1s.getD p default)).2) ∧
    (pop.logWeights = [D.fin 2, D.fin 2, D.fin 2, D.fin 2] →
      pop.logLikelihood = D.fin 10 → pop.size = 4 →
      (term env pop).logLikelihood = D.fin 12) := by
  have hconst := foldl_slotAt_const (pathSlot env) (List.range pop.size)
    ({ pop with logLikelihood := pop.logLikelihood.add ((logsumexpD pop.logWeights).sub (D.fin (Real.log (pop.size : ℝ)))) })
  have h1 : (term env pop).logLikelihood =
      pop.logLikelihood.add
        ((logsumexpD pop.logWeights).sub (D.fin (Real.log (pop.size : ℝ)))) := hconst.2.1
  refine ⟨h1, ?_, ?_⟩
  · intro p hp hl2 hl3 hl4
    have hp1 : p < pop.s1s.length := hp
    have hp2 : p < pop.out1s.length := by
      simp only [Pop.size] at hl2
      omega
    have hp3 : p < pop.logWeights.length := by
      simp only [Pop.size] at hl3
      omega
    have hp4 : p < pop.ancestors.length := by
      simp only [Pop.size] at hl4
      omega
    have hg := foldl_slotAt_get (pathSlot env) (List.range pop.size)
      (List.nodup_range _) p (List.mem_range.mpr hp)
      ({ pop with logLikelihood := pop.logLikelihood.add ((logsumexpD pop.logWeights).sub (D.fin (Real.log (pop.size : ℝ)))) })
      hp1 hp2 hp3 hp4
    exact ⟨hg.1, hg.2.1⟩
  · intro hw hll hsz
    rw [h1, hw, hll, hsz]
    have hlse : logsumexpD [D.fin 2, D.fin 2, D.fin 2, D.fin 2] =
        D.fin (Real.log (Real.exp 2 + (Real.exp 2 + (Real.exp 2 + (Real.exp 2 + 0))))) := rfl
    rw [hlse, D.sub_fin_fin, D.add_fin_fin]
    have h4 : Real.exp 2 + (Real.exp 2 + (Real.exp 2 + (Real.exp 2 + 0))) =
        4 * Real.exp 2 := by ring
    rw [h4, Real.log_mul (by norm_num) (Real.exp_ne_zero 2), Real.log_exp]
    norm_num

/-- Witness for C6 at the concrete four-particle population. -/
theorem term_spec_witness :
    popC6.logWeights = [D.fin 2, D.fin 2, D.fin 2, D.fin 2] ∧
    popC6.logLikelihood = D.fin 10 ∧ popC6.size = 4 ∧
    (term env0 popC6).logLikelihood = D.fin 12 :=
  ⟨rfl, rfl, rfl, (term_spec env0 popC6).2.2 rfl rfl rfl⟩
